import Mathlib

/-!
Verification of the token-service read-through cache (`src/token_service.rs`
of `dca_listener`).

The service is shallowly embedded: the two Postgres tables become lists of
rows, external collaborators (ledger RPC, metadata decoders, quote-service
HTTP endpoint, the database error channel and the clock) become fields of an
`Env` record, and each `async fn` of `TokenService` becomes a pure Lean
function threading the database state and logging its external calls.
Machine integers are modelled as `Nat`/`Int` (no arithmetic overflows occur
in the embedded code paths) and `f64` prices as exact rationals, since the
code only stores and returns them.
-/

namespace DCA

/-- Model of `serde_json::Value` (JSON trees). Numbers are exact rationals;
the code never does arithmetic on JSON numbers. -/
inductive Value where
  | null : Value
  | bool : Bool → Value
  | num : Rat → Value
  | str : String → Value
  | arr : List Value → Value
  | obj : List (String × Value) → Value

/-- Model of `serde_json::Value`'s `Index<&str>` (`value[key]`): on an object,
the value at the first matching key; on a missing key or a non-object,
`Value::Null`. -/
def Value.getKey : Value → String → Value
  | .obj fields, k =>
    match fields.find? (fun kv => kv.1 == k) with
    | some kv => kv.2
    | none => .null
  | _, _ => .null

/-- Model of `serde_json::Value::as_str`: `some s` on a JSON string, else
`none`. -/
def Value.asStr : Value → Option String
  | .str s => some s
  | _ => none

/-- The base58 alphabet used by Solana addresses (Bitcoin alphabet). -/
def base58Alphabet : List Char :=
  "123456789ABCDEFGHJKLMNPQRSTUVWXYZabcdefghijkmnopqrstuvwxyz".toList

/-- Value of one base58 digit character, `none` if the character is not in
the alphabet. -/
def base58DigitVal (c : Char) : Option Nat :=
  base58Alphabet.findIdx? (fun a => a == c)

/-- Little-endian base-256 digits, with explicit fuel (so that the function
reduces definitionally); `fuel = n` always suffices since `n / 256 < n` for
positive `n`. -/
def natToBytesLEAux : Nat → Nat → List Nat
  | 0, _ => []
  | fuel + 1, n => if n = 0 then [] else n % 256 :: natToBytesLEAux fuel (n / 256)

/-- Little-endian base-256 digits of a natural number (no trailing zeros). -/
def natToBytesLE (n : Nat) : List Nat := natToBytesLEAux n n

/-- Model of base58 decoding (as in the `bs58` crate used by
`solana_sdk`): every character must be in the alphabet; the result is one
zero byte per leading `1` followed by the big-endian bytes of the decoded
value. -/
def base58Decode (s : String) : Option (List Nat) :=
  match s.toList.mapM base58DigitVal with
  | none => none
  | some ds =>
    let zeros := (s.toList.takeWhile (fun c => c == '1')).length
    let v := ds.foldl (fun a d => a * 58 + d) 0
    some (List.replicate zeros 0 ++ (natToBytesLE v).reverse)

/-- A Solana public key: 32 bytes. -/
abbrev Pubkey := List Nat

/-- Model of `solana_sdk::pubkey::Pubkey::from_str`: reject strings longer
than 44 characters, base58-decode, require exactly 32 bytes. -/
def pubkeyFromStr (s : String) : Option Pubkey :=
  if s.length > 44 then none
  else
    match base58Decode s with
    | none => none
    | some bytes => if bytes.length = 32 then some bytes else none

/-- Digits-to-`Nat` accumulator (callers guarantee all characters are ASCII
digits). -/
def natOfDigits (ds : List Char) : Nat :=
  ds.foldl (fun a c => a * 10 + (c.toNat - 48)) 0

/-- Exact rational value of a decimal literal `sign, intPart.fracPart, e ex`. -/
def ratOfParts (sign : Int) (ip fp : List Char) (ex : Int) : Rat :=
  let mant : Int := sign * (natOfDigits (ip ++ fp) : Int)
  if 0 ≤ ex then mkRat (mant * ((10 : Int) ^ ex.toNat)) (10 ^ fp.length)
  else mkRat mant (10 ^ fp.length * 10 ^ (-ex).toNat)

/-- Parse the exponent tail (after `e`/`E`) of a float literal: optional
sign, then a nonempty digit string. -/
def parseExpTail (cs : List Char) : Option Int :=
  let sgn : Int × List Char :=
    match cs with
    | '+' :: t => (1, t)
    | '-' :: t => (-1, t)
    | t => (1, t)
  if sgn.2 ≠ [] ∧ sgn.2.all Char.isDigit then some (sgn.1 * (natOfDigits sgn.2 : Int))
  else none

/-- Model of `f64::from_str` restricted to finite decimal literals
(`[+-]? (digits | digits "." digits? | "." digits) ([eE][+-]?digits)?`),
returning the exact rational value. Nonfinite literals (`inf`, `NaN`) are
outside the model; no claim depends on them. -/
def parseF64 (s : String) : Option Rat :=
  let cs := s.toList
  let sgn : Int × List Char :=
    match cs with
    | '+' :: t => (1, t)
    | '-' :: t => (-1, t)
    | t => (1, t)
  let ip := sgn.2.takeWhile Char.isDigit
  let rest1 := sgn.2.dropWhile Char.isDigit
  let fpRest : List Char × List Char :=
    match rest1 with
    | '.' :: t => (t.takeWhile Char.isDigit, t.dropWhile Char.isDigit)
    | t => ([], t)
  if ip.isEmpty ∧ fpRest.1.isEmpty then none
  else
    match fpRest.2 with
    | [] => some (ratOfParts sgn.1 ip fpRest.1 0)
    | c :: t =>
      if rest1 ≠ [] ∧ (c = 'e' ∨ c = 'E') then
        (parseExpTail t).map (ratOfParts sgn.1 ip fpRest.1)
      else none

/-- The NUL character, `char::from(0)` in the source. -/
def nulChar : Char := Char.ofNat 0

/-- Model of Rust `str::trim_matches(char::from(0))`: remove all leading and
trailing NUL characters. -/
def trimMatchesNul (s : String) : String :=
  ⟨((s.toList.dropWhile (fun c => c == nulChar)).reverse.dropWhile
      (fun c => c == nulChar)).reverse⟩

/-- Stated from the spec's words ("strip trailing null-padding from string
fields"), for comparison with `trimMatchesNul`: remove trailing NUL
characters only. -/
def trimTrailingNul (s : String) : String :=
  ⟨(s.toList.reverse.dropWhile (fun c => c == nulChar)).reverse⟩

/-- `TokenMetadata` (token_service.rs lines 12-19). `decimals : u8` and
`supply : u64` become `Nat`; the code never computes with them. -/
structure TokenMetadata where
  mint : String
  name : String
  symbol : String
  decimals : Nat
  supply : Nat
deriving DecidableEq

/-- Result of `spl_token::state::Mint::unpack`: the fields the service
reads. -/
structure MintData where
  supply : Nat
  decimals : Nat
deriving DecidableEq

/-- Result of `mpl_token_metadata::accounts::Metadata::from_bytes`: the
fields the service reads. -/
structure MplMetadata where
  name : String
  symbol : String
deriving DecidableEq

/-- The error channel (`Box<dyn std::error::Error>` in the source), with the
distinctions the spec names. -/
inductive Err where
  | invalidIdentifier : Err
  | notFound : Err
  | decodeError : Err
  | networkError : Err
  | parseError : Err
  | dbError : String → Err
deriving DecidableEq

/-- A row of the `token_metadata` table. The `metadata JSONB` column is
modelled as the `TokenMetadata` it serializes (the serde round trip is
identity on rows the service itself writes). -/
structure MetaRow where
  mint : String
  metadata : TokenMetadata
  last_updated : Int
deriving DecidableEq

/-- A row of the `token_prices` table. -/
structure PriceRow where
  mint : String
  price : Rat
  last_updated : Int
deriving DecidableEq

/-- The two cache tables created in `TokenService::new`. -/
structure DbState where
  token_metadata : List MetaRow
  token_prices : List PriceRow
deriving DecidableEq

/-- External calls a service operation can make: a ledger account read
(`rpc_client.get_account`) or an HTTP GET to the quote service. -/
inductive ExtCall where
  | ledgerRead : Pubkey → ExtCall
  | httpGet : String → ExtCall
deriving DecidableEq

/-- The external world of one service call: the ledger's accounts, the two
account decoders (external crates, parameterized), PDA derivation (sha256
based, parameterized), the quote service's JSON response (`none` = network
or body-decode failure), the clock, and whether database statements fail. -/
structure Env where
  getAccount : Pubkey → Option (List Nat)
  unpackMint : List Nat → Option MintData
  metadataPda : Pubkey → Pubkey
  metadataFromBytes : List Nat → Option MplMetadata
  quoteJson : String → Option Value
  now : Int
  dbErr : Option Err

/-- Outcome of a public service operation: its result, the database state
after it, and the external (ledger/HTTP) calls it made, in order. -/
structure Outcome (α : Type) where
  result : Except Err α
  db : DbState
  calls : List ExtCall

/-- `price_cache_duration` field, set to 60 seconds in `TokenService::new`. -/
def price_cache_duration : Int := 60

/-- `INSERT ... ON CONFLICT (key) DO UPDATE` on a table of rows with the
given key function: overwrite the conflicting row in place, else append. -/
def upsertRow {β : Type} (key : β → String) (t : List β) (r : β) : List β :=
  if t.any (fun x => key x == key r) then
    t.map (fun x => if key x == key r then r else x)
  else t ++ [r]

/-- Upsert into `token_metadata` (`INSERT ... ON CONFLICT (mint) DO UPDATE`). -/
def upsertMeta (t : List MetaRow) (r : MetaRow) : List MetaRow :=
  upsertRow (fun x => x.mint) t r

/-- Upsert into `token_prices` (`INSERT ... ON CONFLICT (mint) DO UPDATE`). -/
def upsertPrice (t : List PriceRow) (r : PriceRow) : List PriceRow :=
  upsertRow (fun x => x.mint) t r

/-- `TokenService::get_from_cache` (lines 98-114): `SELECT metadata FROM
token_metadata WHERE mint = $1` via `query_opt` — no freshness condition.
The primary key guarantees at most one matching row. -/
def get_from_cache (env : Env) (db : DbState) (mint : String) :
    Except Err (Option TokenMetadata) :=
  match env.dbErr with
  | some e => .error e
  | none =>
    .ok ((db.token_metadata.find? (fun r => r.mint == mint)).map (fun r => r.metadata))

/-- `TokenService::save_to_cache` (lines 116-134): upsert keyed by
`metadata.mint` with `last_updated = now`. -/
def save_to_cache (env : Env) (db : DbState) (metadata : TokenMetadata) :
    Except Err DbState :=
  match env.dbErr with
  | some e => .error e
  | none =>
    .ok { db with
          token_metadata :=
            upsertMeta db.token_metadata ⟨metadata.mint, metadata, env.now⟩ }

/-- `TokenService::fetch_token_metadata` (lines 136-163): parse the mint
string as a pubkey, read and unpack the mint account, derive the metadata
PDA, read and decode the metadata account, strip NUL padding from name and
symbol. Returns the result together with the ledger reads performed. -/
def fetch_token_metadata (env : Env) (mint : String) :
    Except Err TokenMetadata × List ExtCall :=
  match pubkeyFromStr mint with
  | none => (.error .invalidIdentifier, [])
  | some mint_pubkey =>
    match env.getAccount mint_pubkey with
    | none => (.error .notFound, [.ledgerRead mint_pubkey])
    | some mintBytes =>
      match env.unpackMint mintBytes with
      | none => (.error .decodeError, [.ledgerRead mint_pubkey])
      | some mint_data =>
        match env.getAccount (env.metadataPda mint_pubkey) with
        | none =>
          (.error .notFound,
           [.ledgerRead mint_pubkey, .ledgerRead (env.metadataPda mint_pubkey)])
        | some metaBytes =>
          match env.metadataFromBytes metaBytes with
          | none =>
            (.error .decodeError,
             [.ledgerRead mint_pubkey, .ledgerRead (env.metadataPda mint_pubkey)])
          | some metadata =>
            (.ok { mint := mint
                   name := trimMatchesNul metadata.name
                   symbol := trimMatchesNul metadata.symbol
                   decimals := mint_data.decimals
                   supply := mint_data.supply },
             [.ledgerRead mint_pubkey, .ledgerRead (env.metadataPda mint_pubkey)])

/-- `TokenService::get_metadata` (lines 82-96): cache hit returns the cached
value unconditionally; on a miss, fetch from chain, save, return. Any error
propagates. -/
def get_metadata (env : Env) (db : DbState) (mint : String) :
    Outcome TokenMetadata :=
  match get_from_cache env db mint with
  | .error e => ⟨.error e, db, []⟩
  | .ok (some metadata) => ⟨.ok metadata, db, []⟩
  | .ok none =>
    match fetch_token_metadata env mint with
    | (.error e, calls) => ⟨.error e, db, calls⟩
    | (.ok metadata, calls) =>
      match save_to_cache env db metadata with
      | .error e => ⟨.error e, db, calls⟩
      | .ok db2 => ⟨.ok metadata, db2, calls⟩

/-- The nested field `data["data"][mint]["price"]` of line 169. -/
def priceJsonField (data : Value) (mint : String) : Value :=
  ((data.getKey "data").getKey mint).getKey "price"

/-- `TokenService::fetch_mint_price` (lines 165-171): GET the quote service,
take `data["data"][mint]["price"].as_str().unwrap_or("0.0")` and parse it as
an `f64`; a failed parse propagates (`?`). -/
def fetch_mint_price (env : Env) (mint : String) :
    Except Err Rat × List ExtCall :=
  match env.quoteJson mint with
  | none => (.error .networkError, [.httpGet mint])
  | some data =>
    match parseF64 (((priceJsonField data mint).asStr).getD "0.0") with
    | none => (.error .parseError, [.httpGet mint])
    | some price => (.ok price, [.httpGet mint])

/-- `TokenService::get_price_from_cache` (lines 186-206): `SELECT price ...
WHERE mint = $1 AND last_updated > now - price_cache_duration` — a cached
price counts as fresh iff `last_updated > now - 60`. -/
def get_price_from_cache (env : Env) (db : DbState) (mint : String) :
    Except Err (Option Rat) :=
  match env.dbErr with
  | some e => .error e
  | none =>
    .ok ((db.token_prices.find?
            (fun r => r.mint == mint
              && decide (env.now - price_cache_duration < r.last_updated))).map
          (fun r => r.price))

/-- `TokenService::save_price_to_cache` (lines 208-226): upsert keyed by
mint with `last_updated = now`. -/
def save_price_to_cache (env : Env) (db : DbState) (mint : String) (price : Rat) :
    Except Err DbState :=
  match env.dbErr with
  | some e => .error e
  | none =>
    .ok { db with token_prices := upsertPrice db.token_prices ⟨mint, price, env.now⟩ }

/-- `TokenService::get_price` (lines 173-184): fresh cache hit returns the
cached value; otherwise fetch from the quote API, save, return. Any error
propagates. -/
def get_price (env : Env) (db : DbState) (mint : String) : Outcome Rat :=
  match get_price_from_cache env db mint with
  | .error e => ⟨.error e, db, []⟩
  | .ok (some price) => ⟨.ok price, db, []⟩
  | .ok none =>
    match fetch_mint_price env mint with
    | (.error e, calls) => ⟨.error e, db, calls⟩
    | (.ok price, calls) =>
      match save_price_to_cache env db mint price with
      | .error e => ⟨.error e, db, calls⟩
      | .ok db2 => ⟨.ok price, db2, calls⟩

/-- One cache-write operation (the only two statements that modify the
tables), together with the environment it runs in. -/
inductive CacheOp where
  | saveMeta : Env → TokenMetadata → CacheOp
  | savePrice : Env → String → Rat → CacheOp

/-- Apply one cache-write operation; a failed statement leaves the tables
unchanged. -/
def applyCacheOp (db : DbState) : CacheOp → DbState
  | .saveMeta env md =>
    match save_to_cache env db md with
    | .ok db2 => db2
    | .error _ => db
  | .savePrice env mint p =>
    match save_price_to_cache env db mint p with
    | .ok db2 => db2
    | .error _ => db

/-- A baseline environment for concrete evaluations: empty ledger, failing
decoders, no quote service, clock at 100, healthy database. -/
def env0 : Env :=
  { getAccount := fun _ => none
    unpackMint := fun _ => none
    metadataPda := id
    metadataFromBytes := fun _ => none
    quoteJson := fun _ => none
    now := 100
    dbErr := none }

/-- Both cache tables empty (the state right after `TokenService::new`). -/
def emptyDb : DbState := ⟨[], []⟩

/-- A syntactically valid mint string (32 `1` characters decode to the
32-byte zero key). -/
def mint32 : String := "11111111111111111111111111111111"

/-- The pubkey `mint32` decodes to. -/
def pk32 : Pubkey := List.replicate 32 0

/-- A concrete metadata value for cache-hit scenarios. -/
def wMd : TokenMetadata := ⟨"m", "Tok", "TK", 6, 1000⟩

/-- A database holding one metadata row for mint `"m"`. -/
def wDb2 : DbState := ⟨[⟨"m", wMd, 0⟩], []⟩

/-- A database holding one fresh price row for mint `"m"`. -/
def wDb1 : DbState := ⟨[], [⟨"m", 5, 50⟩]⟩

/-- A database with a metadata row and a fresh price row for `"m"`. -/
def wDb10 : DbState := ⟨[⟨"m", wMd, 0⟩], [⟨"m", 5, 90⟩]⟩

/-- A quote-service response whose `data` object has no entry for the mint
(the nested price field is absent). -/
def data4 : Value := Value.obj [("data", Value.obj [])]

/-- A quote-service response whose price field is the string `"abc"`, which
does not parse as a float. -/
def data9 : Value :=
  Value.obj [("data", Value.obj [("m", Value.obj [("price", Value.str "abc")])])]

/-- Environment whose quote service answers with `data4`. -/
def wEnv4 : Env := { env0 with quoteJson := fun _ => some data4 }

/-- Environment whose quote service answers with `data9`. -/
def wEnv9 : Env := { env0 with quoteJson := fun _ => some data9 }

/-- Environment with a broken database connection. -/
def wEnv6 : Env := { env0 with dbErr := some (.dbError "connection closed") }

/-- Environment whose ledger and decoders succeed and whose decoded name and
symbol carry trailing NUL padding. -/
def wEnv7 : Env :=
  { env0 with
    getAccount := fun _ => some [1]
    unpackMint := fun _ => some ⟨500, 9⟩
    metadataFromBytes := fun _ => some ⟨"Name\x00\x00", "NM\x00"⟩ }

/-- Environment whose ledger and decoders succeed and whose decoded name has
a leading NUL character. -/
def cexEnv7 : Env :=
  { env0 with
    getAccount := fun _ => some [1]
    unpackMint := fun _ => some ⟨100, 6⟩
    metadataFromBytes := fun _ => some ⟨"\x00A", "S"⟩ }

/-- Environment whose quote service quotes price `"7"` for every mint,
clock at 100. -/
def cexEnv1 : Env :=
  { env0 with
    quoteJson := fun _ =>
      some (Value.obj [("data", Value.obj [("m", Value.obj [("price", Value.str "7")])])]) }

/-- A database holding one price row for `"m"` whose age at time 100 is
exactly 60 seconds. -/
def cexDb1 : DbState := ⟨[], [⟨"m", 5, 40⟩]⟩

/-- If no row of the table has the key, a key lookup finds nothing. -/
theorem find_key_eq_none {β : Type} (key : β → String) {t : List β} {m : String}
    (h : ∀ x ∈ t, key x ≠ m) :
    t.find? (fun x => key x == m) = none :=
  List.find?_eq_none.mpr fun x hx => by simpa using h x hx

/-- On a table with pairwise-distinct keys, a key lookup finds exactly the
member carrying that key. -/
theorem find_key_of_nodup {β : Type} (key : β → String) {t : List β} {m : String}
    (h : (t.map key).Nodup) {r : β} (hr : r ∈ t) (hk : key r = m) :
    t.find? (fun x => key x == m) = some r := by
  induction t with
  | nil => cases hr
  | cons a t ih =>
    rw [List.map_cons, List.nodup_cons] at h
    rcases List.mem_cons.mp hr with rfl | hr2
    · exact List.find?_cons_of_pos _ (by simp [hk])
    · have hne : key a ≠ m := by
        intro ha
        exact h.1 (by rw [ha, ← hk]; exact List.mem_map_of_mem key hr2)
      rw [List.find?_cons_of_neg _ (by simp [hne])]
      exact ih h.2 hr2

/-- On a table with pairwise-distinct keys, a lookup by key conjoined with a
row predicate finds the member carrying the key exactly when the predicate
accepts it. -/
theorem find_key_and_of_nodup {β : Type} (key : β → String) (q : β → Bool)
    {t : List β} {m : String}
    (h : (t.map key).Nodup) {r : β} (hr : r ∈ t) (hk : key r = m) :
    t.find? (fun x => key x == m && q x) = if q r then some r else none := by
  induction t with
  | nil => cases hr
  | cons a t ih =>
    rw [List.map_cons, List.nodup_cons] at h
    rcases List.mem_cons.mp hr with rfl | hr2
    · by_cases hq : q r
      · rw [List.find?_cons_of_pos _ (by simp [hk, hq]), if_pos hq]
      · rw [List.find?_cons_of_neg _ (by simp [hq]), if_neg hq]
        apply List.find?_eq_none.mpr
        intro x hx
        have hxm : key x ≠ m := by
          intro hxm
          exact h.1 (by rw [hk, ← hxm]; exact List.mem_map_of_mem key hx)
        simp [hxm]
    · have hne : key a ≠ m := by
        intro ha
        exact h.1 (by rw [ha, ← hk]; exact List.mem_map_of_mem key hr2)
      rw [List.find?_cons_of_neg _ (by simp [hne])]
      exact ih h.2 hr2

/-- Appending a row with key `m` to a table with no `m`-keyed row makes it
the one found by a key lookup. -/
theorem find_key_append {β : Type} (key : β → String) {t : List β} {m : String}
    (h : ∀ x ∈ t, key x ≠ m) {r : β} (hk : key r = m) :
    (t ++ [r]).find? (fun x => key x == m) = some r := by
  induction t with
  | nil =>
    rw [List.nil_append]
    exact List.find?_cons_of_pos _ (by simp [hk])
  | cons a t ih =>
    rw [List.cons_append,
      List.find?_cons_of_neg _ (by simp [h a (List.mem_cons_self a t)])]
    exact ih fun x hx => h x (List.mem_cons_of_mem a hx)

/-- On a table with pairwise-distinct keys, filtering by a member's key
yields exactly that member. -/
theorem filter_key_of_nodup {β : Type} (key : β → String) {t : List β}
    (h : (t.map key).Nodup) {r : β} (hr : r ∈ t) :
    t.filter (fun x => key x == key r) = [r] := by
  induction t with
  | nil => cases hr
  | cons a t ih =>
    rw [List.map_cons, List.nodup_cons] at h
    rcases List.mem_cons.mp hr with rfl | hr2
    · rw [List.filter_cons_of_pos (by simp)]
      have hnil : t.filter (fun x => key x == key r) = [] := by
        apply List.filter_eq_nil_iff.mpr
        intro x hx
        have : key x ≠ key r := by
          intro hxa
          exact h.1 (by rw [← hxa]; exact List.mem_map_of_mem key hx)
        simp [this]
      rw [hnil]
    · have hne : key a ≠ key r := by
        intro ha
        exact h.1 (by rw [ha]; exact List.mem_map_of_mem key hr2)
      rw [List.filter_cons_of_neg (by simp [hne])]
      exact ih h.2 hr2

/-- The upserted row is a member of the table after the upsert. -/
theorem upsertRow_mem {β : Type} (key : β → String) (t : List β) (r : β) :
    r ∈ upsertRow key t r := by
  unfold upsertRow
  by_cases h : t.any (fun x => key x == key r)
  · rw [if_pos h]
    rcases List.any_eq_true.mp h with ⟨x, hx, hkx⟩
    exact List.mem_map.mpr ⟨x, hx, by simp [hkx]⟩
  · rw [if_neg h]
    exact List.mem_append_right t (List.mem_singleton.mpr rfl)

/-- An upsert never touches any other row's key, and introduces its own key
once: key distinctness of the table is preserved. -/
theorem upsertRow_keys_nodup {β : Type} (key : β → String) (t : List β) (r : β)
    (h : (t.map key).Nodup) : ((upsertRow key t r).map key).Nodup := by
  unfold upsertRow
  by_cases ha : t.any (fun x => key x == key r)
  · rw [if_pos ha, List.map_map]
    have hfun : (key ∘ fun x => if key x == key r then r else x) = key := by
      funext x
      show key (if key x == key r then r else x) = key x
      by_cases hx : key x == key r
      · rw [if_pos hx]
        exact (eq_of_beq hx).symm
      · rw [if_neg hx]
    rw [hfun]
    exact h
  · rw [if_neg ha, List.map_append]
    rw [List.nodup_append]
    refine ⟨h, List.nodup_singleton _, ?_⟩
    intro x hx hy
    rcases List.mem_map.mp hx with ⟨y, hyt, hky⟩
    rw [List.map_singleton, List.mem_singleton] at hy
    have : ∀ z ∈ t, ¬(key z == key r) := by
      intro z hz
      intro hzr
      exact ha (List.any_eq_true.mpr ⟨z, hz, hzr⟩)
    exact this y hyt (by rw [hky, hy]; exact beq_self_eq_true (key r))

/-- The mint recorded in a successfully fetched `TokenMetadata` is the mint
string the fetch was called with. -/
theorem fetch_token_metadata_ok_mint (env : Env) (mint : String)
    (md : TokenMetadata) (calls : List ExtCall)
    (h : fetch_token_metadata env mint = (.ok md, calls)) : md.mint = mint := by
  unfold fetch_token_metadata at h
  repeat' split at h
  all_goals simp_all
  rw [← h.1]

/-- `fetch_mint_price` performs exactly one HTTP GET, whatever happens. -/
theorem fetch_mint_price_calls (env : Env) (mint : String) :
    (fetch_mint_price env mint).2 = [.httpGet mint] := by
  unfold fetch_mint_price
  split
  · rfl
  · split <;> rfl

/-- C6: if the cache-store read fails, `get_metadata` and `get_price`
propagate the database error to the caller and abort the whole operation:
no external fetch is attempted (no ledger read, no HTTP GET), the cache is
unchanged, and no partial result is returned. -/
theorem db_error_propagates (env : Env) (db : DbState) (mint : String) (e : Err)
    (hdb : env.dbErr = some e) :
    get_metadata env db mint = ⟨.error e, db, []⟩ ∧
    get_price env db mint = ⟨.error e, db, []⟩ := by
  constructor
  · simp [get_metadata, get_from_cache, hdb]
  · simp [get_price, get_price_from_cache, hdb]

/-- Witness for `db_error_propagates`: a concrete broken-database
environment. -/
theorem db_error_propagates_witness :
    get_metadata wEnv6 emptyDb "m" =
      ⟨.error (.dbError "connection closed"), emptyDb, []⟩ ∧
    get_price wEnv6 emptyDb "m" =
      ⟨.error (.dbError "connection closed"), emptyDb, []⟩ :=
  db_error_propagates wEnv6 emptyDb "m" (.dbError "connection closed") rfl

/-- C4: when the nested price field `data["data"][mint]["price"]` is absent
from the quote-service response (absent keys index to `Null` in the JSON
model, as in `serde_json`), `fetch_mint_price` succeeds and returns `0.0`. -/
theorem fetch_price_missing_field (env : Env) (mint : String) (data : Value)
    (hq : env.quoteJson mint = some data)
    (habsent : priceJsonField data mint = Value.null) :
    fetch_mint_price env mint = (.ok 0, [.httpGet mint]) := by
  have h00 : parseF64 "0.0" = some 0 := by decide
  simp [fetch_mint_price, hq, habsent, Value.asStr, h00]

/-- Witness for `fetch_price_missing_field`: a response whose `data` object
has no entry for the requested mint. -/
theorem fetch_price_missing_field_witness :
    fetch_mint_price wEnv4 "m" = (.ok 0, [.httpGet "m"]) :=
  fetch_price_missing_field wEnv4 "m" data4 rfl rfl

/-- C9: the `0.0` fallback applies exactly when
`data["data"][mint]["price"].as_str()` yields no string (field absent or
present as a non-string JSON value); a present string that fails float
parsing makes `fetch_mint_price` return a parse error, and a present string
that parses is returned as-is. -/
theorem fetch_price_fallback_exact (env : Env) (mint : String) (data : Value)
    (hq : env.quoteJson mint = some data) :
    ((priceJsonField data mint).asStr = none →
      fetch_mint_price env mint = (.ok 0, [.httpGet mint]))
    ∧ (∀ s, (priceJsonField data mint).asStr = some s → parseF64 s = none →
      fetch_mint_price env mint = (.error .parseError, [.httpGet mint]))
    ∧ (∀ s q, (priceJsonField data mint).asStr = some s → parseF64 s = some q →
      fetch_mint_price env mint = (.ok q, [.httpGet mint])) := by
  refine ⟨fun h => ?_, fun s hs hp => ?_, fun s q hs hp => ?_⟩
  · have h00 : parseF64 "0.0" = some 0 := by decide
    simp [fetch_mint_price, hq, h, h00]
  · simp [fetch_mint_price, hq, hs, hp]
  · simp [fetch_mint_price, hq, hs, hp]

/-- Witness for `fetch_price_fallback_exact`: the price field is the string
`"abc"`, which does not parse as a float, and the fetch errors instead of
falling back to `0.0`. -/
theorem fetch_price_fallback_exact_witness :
    fetch_mint_price wEnv9 "m" = (.error .parseError, [.httpGet "m"]) :=
  (fetch_price_fallback_exact wEnv9 "m" data9 rfl).2.1 "abc" rfl rfl

/-- C8: a mint string that does not parse as a chain address makes
`fetch_token_metadata` fail with the invalid-identifier error before any
account read (its call list is empty), so `get_metadata` on a cache miss
for such a string returns that error. -/
theorem invalid_mint_rejected (env : Env) (db : DbState) (mint : String)
    (hdb : env.dbErr = none)
    (hmiss : ∀ r ∈ db.token_metadata, r.mint ≠ mint)
    (hbad : pubkeyFromStr mint = none) :
    fetch_token_metadata env mint = (.error .invalidIdentifier, []) ∧
    get_metadata env db mint = ⟨.error .invalidIdentifier, db, []⟩ := by
  have hfetch : fetch_token_metadata env mint = (.error .invalidIdentifier, []) := by
    simp [fetch_token_metadata, hbad]
  have hfind := find_key_eq_none (fun r : MetaRow => r.mint) hmiss
  refine ⟨hfetch, ?_⟩
  simp [get_metadata, get_from_cache, hdb, hfind, hfetch]

/-- Witness for `invalid_mint_rejected`: `"!!"` is not base58. -/
theorem invalid_mint_rejected_witness :
    fetch_token_metadata env0 "!!" = (.error .invalidIdentifier, []) ∧
    get_metadata env0 emptyDb "!!" = ⟨.error .invalidIdentifier, emptyDb, []⟩ :=
  invalid_mint_rejected env0 emptyDb "!!" rfl
    (fun r hr => absurd hr (List.not_mem_nil r)) rfl

/-- C3: when the metadata fetch fails (unknown mint, missing account,
decode failure), `get_metadata` on a cache miss returns the error and the
database state is unchanged: no row is written to either cache table. -/
theorem get_metadata_error_no_write (env : Env) (db : DbState) (mint : String)
    (e : Err) (calls : List ExtCall)
    (hdb : env.dbErr = none)
    (hmiss : ∀ r ∈ db.token_metadata, r.mint ≠ mint)
    (hfetch : fetch_token_metadata env mint = (.error e, calls)) :
    get_metadata env db mint = ⟨.error e, db, calls⟩ := by
  have hfind := find_key_eq_none (fun r : MetaRow => r.mint) hmiss
  simp [get_metadata, get_from_cache, hdb, hfind, hfetch]

/-- Witness for `get_metadata_error_no_write`: a well-formed mint unknown to
the (empty) ledger fails with the not-found error after one account read,
and the cache stays empty. -/
theorem get_metadata_error_no_write_witness :
    get_metadata env0 emptyDb mint32 =
      ⟨.error .notFound, emptyDb, [.ledgerRead pk32]⟩ :=
  get_metadata_error_no_write env0 emptyDb mint32 .notFound [.ledgerRead pk32] rfl
    (fun r hr => absurd hr (List.not_mem_nil r)) rfl

/-- C2: with a cached metadata row, `get_metadata` returns the cached value
unconditionally (no expiry check, no ledger contact, no write); on a miss
it fetches, upserts and returns the fetched metadata, after which a second
call for the same mint — under any later environment — returns the same
metadata with no external call. -/
theorem get_metadata_read_through (env : Env) (db : DbState) (mint : String)
    (hdb : env.dbErr = none)
    (hnodup : (db.token_metadata.map fun r => r.mint).Nodup) :
    (∀ r ∈ db.token_metadata, r.mint = mint →
      get_metadata env db mint = ⟨.ok r.metadata, db, []⟩)
    ∧ ((∀ r ∈ db.token_metadata, r.mint ≠ mint) →
      ∀ md calls, fetch_token_metadata env mint = (.ok md, calls) →
        get_metadata env db mint =
          ⟨.ok md,
           ⟨upsertMeta db.token_metadata ⟨md.mint, md, env.now⟩, db.token_prices⟩,
           calls⟩
        ∧ ∀ env2 : Env, env2.dbErr = none →
            get_metadata env2 (get_metadata env db mint).db mint =
              ⟨.ok md, (get_metadata env db mint).db, []⟩) := by
  constructor
  · intro r hr hk
    have hfind := find_key_of_nodup (fun x : MetaRow => x.mint) hnodup hr hk
    simp [get_metadata, get_from_cache, hdb, hfind]
  · intro hmiss md calls hfetch
    have hfind := find_key_eq_none (fun x : MetaRow => x.mint) hmiss
    have hmint : md.mint = mint := fetch_token_metadata_ok_mint env mint md calls hfetch
    have hmain : get_metadata env db mint =
        ⟨.ok md,
         ⟨upsertMeta db.token_metadata ⟨md.mint, md, env.now⟩, db.token_prices⟩,
         calls⟩ := by
      simp [get_metadata, get_from_cache, hdb, hfind, hfetch, save_to_cache]
    refine ⟨hmain, ?_⟩
    intro env2 hdb2
    rw [hmain]
    have happend : upsertMeta db.token_metadata ⟨md.mint, md, env.now⟩ =
        db.token_metadata ++ [⟨md.mint, md, env.now⟩] := by
      unfold upsertMeta upsertRow
      rw [if_neg]
      intro hc
      rcases List.any_eq_true.mp hc with ⟨x, hx, hkx⟩
      exact hmiss x hx ((eq_of_beq hkx).trans hmint)
    have hfind2 : (db.token_metadata ++ [(⟨md.mint, md, env.now⟩ : MetaRow)]).find?
        (fun x => x.mint == mint) = some ⟨md.mint, md, env.now⟩ :=
      find_key_append (fun x : MetaRow => x.mint) hmiss hmint
    simp [get_metadata, get_from_cache, hdb2, happend, hfind2]

/-- Witness for `get_metadata_read_through`: a populated metadata cache row
is returned as-is, with no external call and no write. -/
theorem get_metadata_read_through_witness :
    get_metadata env0 wDb2 "m" = ⟨.ok wMd, wDb2, []⟩ :=
  (get_metadata_read_through env0 wDb2 "m" rfl (by decide)).1
    ⟨"m", wMd, 0⟩ (by decide) rfl

/-- C1 (amended): with a cached price record, `get_price` returns the
cached price with no external call exactly when `now - last_updated < 60`
(strict); otherwise — no record, or age `≥ 60` — it calls the price
fetcher (one HTTP GET), upserts the fetched price, and returns it. The
source condition is `last_updated > now - 60`, so a record of age exactly
60 is already stale. -/
theorem get_price_freshness (env : Env) (db : DbState) (mint : String)
    (hdb : env.dbErr = none)
    (hnodup : (db.token_prices.map fun r => r.mint).Nodup) :
    (∀ r ∈ db.token_prices, r.mint = mint →
      env.now - r.last_updated < price_cache_duration →
      get_price env db mint = ⟨.ok r.price, db, []⟩)
    ∧ ((∀ r ∈ db.token_prices, r.mint = mint →
        price_cache_duration ≤ env.now - r.last_updated) →
      ∀ p calls, fetch_mint_price env mint = (.ok p, calls) →
        calls = [.httpGet mint] ∧
        get_price env db mint =
          ⟨.ok p,
           ⟨db.token_metadata, upsertPrice db.token_prices ⟨mint, p, env.now⟩⟩,
           calls⟩) := by
  constructor
  · intro r hr hk hfresh
    have hfind := find_key_and_of_nodup (fun x : PriceRow => x.mint)
      (fun x => decide (env.now - price_cache_duration < x.last_updated)) hnodup hr hk
    rw [if_pos (decide_eq_true
      (show env.now - price_cache_duration < r.last_updated by omega))] at hfind
    simp [get_price, get_price_from_cache, hdb, hfind]
  · intro hstale p calls hfetch
    have hfind : db.token_prices.find?
        (fun x => x.mint == mint
          && decide (env.now - price_cache_duration < x.last_updated)) = none := by
      apply List.find?_eq_none.mpr
      intro x hx
      by_cases hk : x.mint = mint
      · have hst := hstale x hx hk
        simp only [hk, beq_self_eq_true, Bool.true_and]
        simp only [decide_eq_true_eq]
        omega
      · simp [hk]
    have hcalls : calls = [.httpGet mint] := by
      have h2 := fetch_mint_price_calls env mint
      rw [hfetch] at h2
      exact h2
    refine ⟨hcalls, ?_⟩
    simp [get_price, get_price_from_cache, hdb, hfind, hfetch, save_price_to_cache]

/-- Witness for `get_price_freshness`: a price row of age 50 is returned
from the cache with no HTTP call and no write. -/
theorem get_price_freshness_witness :
    get_price env0 wDb1 "m" = ⟨.ok 5, wDb1, []⟩ :=
  (get_price_freshness env0 wDb1 "m" rfl (by decide)).1
    ⟨"m", 5, 50⟩ (by decide) rfl (by decide)

/-- C1 counterexample: a cached record of age exactly 60 (`now = 100`,
`last_updated = 40`) satisfies the claim's `now - last_updated <= 60`, yet
`get_price` does not return the cached price 5 — it fetches (one HTTP GET),
upserts, and returns the quote-service price 7. -/
theorem get_price_age60_cex :
    cexEnv1.now - 40 = 60 ∧
    get_price cexEnv1 cexDb1 "m" =
      ⟨.ok 7, ⟨[], [⟨"m", 7, 100⟩]⟩, [.httpGet "m"]⟩ ∧
    get_price cexEnv1 cexDb1 "m" ≠ ⟨.ok 5, cexDb1, []⟩ := by
  have h : get_price cexEnv1 cexDb1 "m" =
      ⟨.ok 7, ⟨[], [⟨"m", 7, 100⟩]⟩, [.httpGet "m"]⟩ := rfl
  refine ⟨by decide, h, ?_⟩
  rw [h]
  intro hc
  have h75 : (7 : Rat) = 5 := Except.ok.inj (congrArg Outcome.result hc)
  norm_num at h75

/-- C10: a cache hit performs no write and no external call: with a cached
metadata row, `get_metadata` leaves the database exactly as it was, and
with a fresh cached price row (age within the window), so does
`get_price`. -/
theorem cache_hit_no_write (env : Env) (db : DbState) (mint : String)
    (hdb : env.dbErr = none)
    (hnm : (db.token_metadata.map fun r => r.mint).Nodup)
    (hnp : (db.token_prices.map fun r => r.mint).Nodup) :
    (∀ r ∈ db.token_metadata, r.mint = mint →
      (get_metadata env db mint).db = db ∧ (get_metadata env db mint).calls = [])
    ∧ (∀ r ∈ db.token_prices, r.mint = mint →
      env.now - r.last_updated < price_cache_duration →
      (get_price env db mint).db = db ∧ (get_price env db mint).calls = []) := by
  constructor
  · intro r hr hk
    have hfind := find_key_of_nodup (fun x : MetaRow => x.mint) hnm hr hk
    constructor <;> simp [get_metadata, get_from_cache, hdb, hfind]
  · intro r hr hk hfresh
    have hfind := find_key_and_of_nodup (fun x : PriceRow => x.mint)
      (fun x => decide (env.now - price_cache_duration < x.last_updated)) hnp hr hk
    rw [if_pos (decide_eq_true
      (show env.now - price_cache_duration < r.last_updated by omega))] at hfind
    constructor <;> simp [get_price, get_price_from_cache, hdb, hfind]

/-- Witness for `cache_hit_no_write`: hits on both tables leave the
database untouched. -/
theorem cache_hit_no_write_witness :
    (get_metadata env0 wDb10 "m").db = wDb10 ∧
    (get_metadata env0 wDb10 "m").calls = [] ∧
    (get_price env0 wDb10 "m").db = wDb10 ∧
    (get_price env0 wDb10 "m").calls = [] := by
  have h := cache_hit_no_write env0 wDb10 "m" rfl (by decide) (by decide)
  refine ⟨(h.1 ⟨"m", wMd, 0⟩ (by decide) rfl).1,
          (h.1 ⟨"m", wMd, 0⟩ (by decide) rfl).2,
          (h.2 ⟨"m", 5, 90⟩ (by decide) rfl (by decide)).1,
          (h.2 ⟨"m", 5, 90⟩ (by decide) rfl (by decide)).2⟩

/-- C7 (amended): every successfully fetched token metadata carries the
decoded on-chain name and symbol with their leading and trailing NUL
characters stripped (`trim_matches(char::from(0))` trims both ends). -/
theorem fetch_metadata_trims_nul (env : Env) (mint : String) (pk : Pubkey)
    (b1 b2 : List Nat) (m : MintData) (meta : MplMetadata)
    (hpk : pubkeyFromStr mint = some pk)
    (h1 : env.getAccount pk = some b1)
    (hm : env.unpackMint b1 = some m)
    (h2 : env.getAccount (env.metadataPda pk) = some b2)
    (hmeta : env.metadataFromBytes b2 = some meta) :
    (fetch_token_metadata env mint).1 =
      .ok ⟨mint, trimMatchesNul meta.name, trimMatchesNul meta.symbol,
           m.decimals, m.supply⟩ := by
  simp [fetch_token_metadata, hpk, h1, hm, h2, hmeta]

/-- Witness for `fetch_metadata_trims_nul`: trailing NUL padding on the
decoded name and symbol is stripped. -/
theorem fetch_metadata_trims_nul_witness :
    (fetch_token_metadata wEnv7 mint32).1 = .ok ⟨mint32, "Name", "NM", 9, 500⟩ := by
  have h := fetch_metadata_trims_nul wEnv7 mint32 pk32 [1] [1] ⟨500, 9⟩
    ⟨"Name\x00\x00", "NM\x00"⟩ rfl rfl rfl rfl rfl
  rw [h]
  rfl

/-- C7 counterexample: a decoded name with a leading NUL (`"\x00A"`). The
claim says the returned name is the decoded string with its trailing NUL
padding stripped, i.e. `"\x00A"` itself; the code returns `"A"` because
`trim_matches` strips both ends. -/
theorem fetch_metadata_trim_cex :
    (fetch_token_metadata cexEnv7 mint32).1 = .ok ⟨mint32, "A", "S", 6, 100⟩ ∧
    trimTrailingNul "\x00A" = "\x00A" ∧
    ("A" : String) ≠ "\x00A" := by
  refine ⟨rfl, rfl, by decide⟩

/-- One cache-write operation preserves key distinctness of both tables. -/
theorem applyCacheOp_nodup (db : DbState) (op : CacheOp)
    (hm : (db.token_metadata.map fun r => r.mint).Nodup)
    (hp : (db.token_prices.map fun r => r.mint).Nodup) :
    ((applyCacheOp db op).token_metadata.map fun r => r.mint).Nodup ∧
    ((applyCacheOp db op).token_prices.map fun r => r.mint).Nodup := by
  cases op with
  | saveMeta env md =>
    cases henv : env.dbErr with
    | some e =>
      simp only [applyCacheOp, save_to_cache, henv]
      exact ⟨hm, hp⟩
    | none =>
      simp only [applyCacheOp, save_to_cache, henv, upsertMeta]
      exact ⟨upsertRow_keys_nodup _ _ _ hm, hp⟩
  | savePrice env mint p =>
    cases henv : env.dbErr with
    | some e =>
      simp only [applyCacheOp, save_price_to_cache, henv]
      exact ⟨hm, hp⟩
    | none =>
      simp only [applyCacheOp, save_price_to_cache, henv, upsertPrice]
      exact ⟨hm, upsertRow_keys_nodup _ _ _ hp⟩

/-- Any sequence of cache-write operations preserves key distinctness of
both tables. -/
theorem foldl_applyCacheOp_nodup (ops : List CacheOp) (db : DbState)
    (hm : (db.token_metadata.map fun r => r.mint).Nodup)
    (hp : (db.token_prices.map fun r => r.mint).Nodup) :
    (((ops.foldl applyCacheOp db).token_metadata.map fun r => r.mint).Nodup) ∧
    (((ops.foldl applyCacheOp db).token_prices.map fun r => r.mint).Nodup) := by
  induction ops generalizing db with
  | nil => exact ⟨hm, hp⟩
  | cons op ops ih =>
    rw [List.foldl_cons]
    have h1 := applyCacheOp_nodup db op hm hp
    exact ih (applyCacheOp db op) h1.1 h1.2

/-- C5: starting from any tables with at most one row per mint, every
sequence of `save_to_cache` / `save_price_to_cache` operations keeps at
most one metadata row and at most one price row per mint (writes are
upserts keyed by mint), and writing the same price record twice leaves
exactly one row for that mint, holding the latest value and timestamp. -/
theorem cache_upsert_invariant (ops : List CacheOp) (db : DbState)
    (hm : (db.token_metadata.map fun r => r.mint).Nodup)
    (hp : (db.token_prices.map fun r => r.mint).Nodup) :
    ((((ops.foldl applyCacheOp db).token_metadata.map fun r => r.mint).Nodup)
      ∧ (((ops.foldl applyCacheOp db).token_prices.map fun r => r.mint).Nodup))
    ∧ (∀ (env1 env2 : Env) (mint : String) (p : Rat) (db1 db2 : DbState),
        save_price_to_cache env1 (ops.foldl applyCacheOp db) mint p = .ok db1 →
        save_price_to_cache env2 db1 mint p = .ok db2 →
        db2.token_prices.filter (fun r => r.mint == mint) = [⟨mint, p, env2.now⟩]) := by
  have hfold := foldl_applyCacheOp_nodup ops db hm hp
  refine ⟨hfold, ?_⟩
  intro env1 env2 mint p db1 db2 hs1 hs2
  cases henv1 : env1.dbErr with
  | some e => simp [save_price_to_cache, henv1] at hs1
  | none =>
    simp only [save_price_to_cache, henv1] at hs1
    cases henv2 : env2.dbErr with
    | some e => simp [save_price_to_cache, henv2] at hs2
    | none =>
      simp only [save_price_to_cache, henv2] at hs2
      have hdb1 := (Except.ok.inj hs1).symm
      have hdb2 := (Except.ok.inj hs2).symm
      have hn1 : (db1.token_prices.map fun r => r.mint).Nodup := by
        rw [hdb1]
        exact upsertRow_keys_nodup _ _ _ hfold.2
      have hn2 : (db2.token_prices.map fun r => r.mint).Nodup := by
        rw [hdb2]
        exact upsertRow_keys_nodup _ _ _ hn1
      have hmem : (⟨mint, p, env2.now⟩ : PriceRow) ∈ db2.token_prices := by
        rw [hdb2]
        exact upsertRow_mem _ _ _
      exact filter_key_of_nodup (fun x : PriceRow => x.mint) hn2 hmem

/-- Witness for `cache_upsert_invariant`: writing price 2 for `"m"` twice
into the empty table leaves exactly the one row `("m", 2, 100)`. -/
theorem cache_upsert_invariant_witness :
    (DbState.mk [] [⟨"m", 2, 100⟩]).token_prices.filter (fun r => r.mint == "m") =
      [⟨"m", 2, 100⟩] :=
  (cache_upsert_invariant [] emptyDb (by decide) (by decide)).2
    env0 env0 "m" 2 ⟨[], [⟨"m", 2, 100⟩]⟩ ⟨[], [⟨"m", 2, 100⟩]⟩ rfl rfl

end DCA
